import Mathlib

/-!
Verification development for the GANBLR model (`ganblr/models/ganblr.py`).

The file shallowly embeds the training orchestrator (`fit`), the TSTR
evaluation routine (`evaluate`), the synthetic sampling routine (`sample`)
with its CPD-table reconstruction pipeline, and the per-round generator
refinement (`_run_generator`).  External collaborators that live outside
the repository slice (TensorFlow training, pgmpy forward sampling,
sklearn classifiers) are abstracted as oracle functions; collaborators
that belong to the repository but are not in the provided sources
(`ganblr/kdb.py`, `ganblr/utils.py`) are modelled from the specification
and marked as such in their doc comments.
-/

namespace Ganblr

noncomputable section

/-- Number of `true` entries in a boolean list (a numpy boolean mask summed). -/
def countTrue (bs : List Bool) : Nat := bs.count true

/-- Successive slices of a list by the given sizes: the i-th slice is
`l[start:end]` for the i-th consecutive window `(start, end)` of the
cumulative sums of `sizes` — the `np.cumsum([0] + sizes)` boundary idiom of
`GANBLR.sample` (lines 128-132 and 136-137 of `ganblr.py`). -/
def sliceBy : List Nat → List α → List (List α)
  | [], _ => []
  | n :: ns, l => l.take n :: sliceBy ns (l.drop n)

/-- Row-major reshape into rows of width `n` (numpy `reshape(-1, n)`). -/
def chunks (n : Nat) (l : List α) : List (List α) :=
  if n = 0 then [] else
  match l with
  | [] => []
  | x :: xs => (x :: xs).take n :: chunks n ((x :: xs).drop n)
termination_by l.length
decreasing_by simp_all [List.length_drop]; omega

/-- Boolean-mask scatter into a zero array (numpy
`zeros[mask] = vals`, line 148-149 of `ganblr.py`): positions where the
mask is `true` receive the next value in order, all others are `0`. -/
def scatter : List Bool → List ℝ → List ℝ
  | [], _ => []
  | true :: bs, v :: vs => v :: scatter bs vs
  | true :: bs, [] => 0 :: scatter bs []
  | false :: bs, vs => 0 :: scatter bs vs

/-- Transpose of a rectangular matrix with `ncols` columns, given as a list
of rows (numpy `.T`): row `j` of the result collects entry `j` of every row
of `M`. -/
def transposeM (ncols : Nat) (M : List (List ℝ)) : List (List ℝ) :=
  (List.range ncols).map (fun j => M.map (fun r => r.getD j 0))

/-- Column sum of a matrix given as a list of rows (numpy `sum(axis=0)`). -/
def colSum (M : List (List ℝ)) (c : Nat) : ℝ := (M.map (fun r => r.getD c 0)).sum

/-- Per-group column normalization `p / p.sum(axis=0)` (line 133 of
`ganblr.py`): every entry is divided by the sum of its column. -/
def normGroup (ncols : Nat) (g : List (List ℝ)) : List (List ℝ) :=
  g.map (fun r => (List.range ncols).map (fun c => r.getD c 0 / colSum g c))

/-- `np.exp` applied elementwise to the generator kernel
(line 131 of `ganblr.py`). -/
def expM (w : List (List ℝ)) : List (List ℝ) := w.map (fun r => r.map Real.exp)

/-- Modelled from the spec: `constraints_` of the kDB high-order feature
encoder (`ganblr/kdb.py`, which is not under `src/`).  Per the spec,
constraint groups are the contiguous blocks of encoded columns belonging to
one parent-value combination of one feature, so their sizes are the counts
of structurally valid values in each have-value mask row, listed
feature-major and parent-combination-minor. -/
def constraintsOf (masks : List (List (List Bool))) : List Nat :=
  (masks.map (fun m => m.map countTrue)).flatten

/-- Modelled from the spec: `high_order_feature_uniques_` of the kDB encoder
(`ganblr/kdb.py`, not under `src/`): the per-feature number of encoded
columns, i.e. the total count of structurally valid
(parent-combination, own-value) pairs of that feature's have-value mask. -/
def houOf (masks : List (List (List Bool))) : List Nat :=
  masks.map (fun m => (m.map countTrue).sum)

/-- Modelled from the spec: the call `_add_uniform(full_cpd_prob, noise=0)`
on line 152 of `ganblr.py` (`_add_uniform` lives in `ganblr/kdb.py`, not
under `src/`); with zero noise the spec describes uniform smoothing as a
pass-through safeguard, so the call is the identity on the table. -/
def addUniformZero (t : List (List ℝ)) : List (List ℝ) := t

/-- Lines 128-133 of `ganblr.py`: exponentiate the generator kernel, slice
it at the cumulative constraint-group boundaries, normalize every group's
columns by their sums, and re-stack the groups (`np.vstack`). -/
def cpdProbs (numClasses : Nat) (kernel : List (List ℝ))
    (masks : List (List (List Bool))) : List (List ℝ) :=
  ((sliceBy (constraintsOf masks) (expM kernel)).map (normGroup numClasses)).flatten

/-- `have_value.shape[-1]`: the own-cardinality of a feature, read off as
the width of its have-value mask rows. -/
def ownCardOf (m : List (List Bool)) : Nat := (m.headD []).length

/-- Lines 140-152 of `ganblr.py`: reconstruction of one feature's full CPD
table from its normalized probability slice `cp` and its have-value mask
`m`: ravel the mask, repeat it once per class, scatter `cp.T.ravel()`
through the repeated mask into a zero array, reshape to rows of the
feature's own cardinality, transpose, and pass through zero-noise uniform
smoothing. -/
def fullCpdOf (numClasses : Nat) (m : List (List Bool))
    (cp : List (List ℝ)) : List (List ℝ) :=
  let haveValueRavel := m.flatten
  let haveValueRavelRepeat := (List.replicate numClasses haveValueRavel).flatten
  let fullRavel := scatter haveValueRavelRepeat ((transposeM numClasses cp).flatten)
  addUniformZero (transposeM (ownCardOf m) (chunks (ownCardOf m) fullRavel))

/-- Lines 128-153 of `ganblr.py`: the list of full CPD tables that
`GANBLR.sample` reconstructs, one per feature node: the normalized encoded
probabilities are sliced at the per-feature boundaries
(`high_order_feature_uniques_` cumulative sums) and each slice is scattered
into its feature's full table. -/
def fullCpdProbs (numClasses : Nat) (kernel : List (List ℝ))
    (masks : List (List (List Bool))) : List (List (List ℝ)) :=
  let cps := sliceBy (houOf masks) (cpdProbs numClasses kernel masks)
  (masks.zip cps).map (fun fm => fullCpdOf numClasses fm.1 fm.2)

/-- A raw (unencoded) data row of discrete feature values. -/
abbrev Row := List Nat

/-- Generator weights as stored in `self.__gen_weights`: the kernel of the
single dense softmax layer together with its bias vector. -/
abbrev GenW := List (List ℝ) × List ℝ

/-- Discriminator weights: the kernel and the bias of the single
`Dense(1, activation=sigmoid)` layer built by `GANBLR._discrim`. -/
abbrev DiscW := List ℝ × ℝ

/-- Modelled from the spec: the `DataUtils` wrapper from `ganblr/utils.py`
(not under `src/`), which wraps the raw `(x, y)` arrays; `data_size` is the
number of rows and `class_counts` counts rows per class label. -/
structure DataUtilsM where
  x : List Row
  y : List Nat
deriving Repr, DecidableEq

/-- `DataUtils.data_size`: the number of rows of the wrapped dataset. -/
def DataUtilsM.dataSize (d : DataUtilsM) : Nat := d.x.length

/-- A Python argument value as far as the embedded code inspects it:
a string, an integer, or some other object of which only the presence of a
`fit` attribute matters. -/
inductive PyArg where
  | pyStr (s : String)
  | pyInt (n : Int)
  | pyObj (hasFit : Bool)
deriving Repr, DecidableEq

/-- Python `hasattr(v, ...)` for a `fit` attribute: strings and integers
expose none; other objects may. -/
def hasFitAttr : PyArg → Bool
  | .pyObj b => b
  | _ => false

/-- Lines 41-42 of `ganblr.py`:
`if verbose is None or not isinstance(verbose, int): verbose = 1`.
`None` is modelled as a non-integer `PyArg`. -/
def normVerbose : PyArg → Int
  | .pyInt n => n
  | _ => 1

/-- The logistic sigmoid, the activation of the discriminator's single
dense unit. -/
def sigmoid (z : ℝ) : ℝ := 1 / (1 + Real.exp (-z))

/-- Dot product of the discriminator kernel with a raw feature row. -/
def dotRow (w : List ℝ) (r : Row) : ℝ :=
  (w.zipWith (fun wi xi => wi * (xi : ℝ)) r).sum

/-- `disc.predict` on one raw row: the sigmoid dense unit built by
`GANBLR._discrim` (line 214 of `ganblr.py`) applied to the row. -/
def discPredict (d : DiscW) (r : Row) : ℝ := sigmoid (dotRow d.1 r + d.2)

/-- Oracles for the external training and sampling collaborators consumed
by `fit`: TensorFlow `fit` runs (warmup, discriminator, generator) and the
full `sample()` pipeline with its pgmpy forward sampler.  Every oracle
takes an explicit seed, standing for the global random state it consumes;
`subsample` is modelled from the spec (`sample(..., frac=0.8)` of
`ganblr/utils.py` is not under `src/`): it subsamples a fraction of the
given rows and labels.  `genFit` is the one-epoch generator refinement of
`_run_generator` (lines 199-210 of `ganblr.py`) and receives exactly what
that method reads: the wrapped data `self.__d` (trained on
`d.get_kdbe_x(self.k)` and `d.y`), the dependency order `self.k`, the
kernel constraint positions `self.constraints`, the stored weight values,
the loss scalar, the batch size, the epoch count and the random state. -/
structure TrainEnv where
  warmup : Nat → Nat → Nat → Nat → GenW
  synthesize : GenW → Nat → Nat → List Row × List Nat
  subsample : ℝ → List Row → List ℝ → Nat → List Row × List ℝ
  discFit : List Row → List ℝ → Nat → Nat → Nat → DiscW
  genFit : DataUtilsM → Nat → List Nat → GenW → ℝ → Nat → Nat → Nat → GenW
  constraintPositions : Nat → List Nat

/-- Record of one adversarial refinement round of `fit`
(lines 50-58 of `ganblr.py`). -/
structure RoundRec where
  stacked : List Row
  labels : List ℝ
  discIn : List Row
  discLab : List ℝ
  disc : DiscW
  probFake : List ℝ
  loss : ℝ
  genW : GenW
  syn : List Row × List Nat

instance : Inhabited RoundRec :=
  ⟨⟨[], [], [], [], ([], 0), [], 0, ([], []), ([], [])⟩⟩

/-- One adversarial round (lines 51-58 of `ganblr.py`): stack the real rows
with the current synthetic rows, subsample 80 percent together with the
fixed 1/0 labels, fit a fresh discriminator for one epoch, score the real
rows `x` through it, compute the mean of `-log(1 - prob_fake)`, refine the
generator for one epoch under that loss, and resample synthetic data. -/
def fitRound (env : TrainEnv) (d : DataUtilsM) (k : Nat) (cons : List Nat)
    (x : List Row) (labels : List ℝ) (batchSize : Nat) (seeds : Nat → Nat)
    (st : GenW × (List Row × List Nat) × Nat) :
    RoundRec × (GenW × (List Row × List Nat) × Nat) :=
  let gw := st.1
  let syn := st.2.1
  let pos := st.2.2
  let stacked := x ++ syn.1
  let sub := env.subsample 0.8 stacked labels (seeds pos)
  let disc := env.discFit sub.1 sub.2 batchSize 1 (seeds (pos + 1))
  let probFake := x.map (discPredict disc)
  let ls := (probFake.map (fun p => -Real.log (1 - p))).sum / (probFake.length : ℝ)
  let gw' := env.genFit d k cons gw ls batchSize 1 (seeds (pos + 2))
  let syn' := env.synthesize gw' x.length (seeds (pos + 3))
  (⟨stacked, labels, sub.1, sub.2, disc, probFake, ls, gw', syn'⟩,
   (gw', syn', pos + 4))

/-- The `for i in range(epochs)` loop of `fit` (lines 50-58), collecting
one `RoundRec` per round and threading generator weights, synthetic data
and the random-state position. -/
def fitRounds (env : TrainEnv) (d : DataUtilsM) (k : Nat) (cons : List Nat)
    (x : List Row) (labels : List ℝ) (batchSize : Nat) (seeds : Nat → Nat) :
    Nat → GenW × (List Row × List Nat) × Nat →
    List RoundRec × (GenW × (List Row × List Nat) × Nat)
  | 0, st => ([], st)
  | e + 1, st =>
    let step := fitRound env d k cons x labels batchSize seeds st
    let rest := fitRounds env d k cons x labels batchSize seeds e step.2
    (step.1 :: rest.1, rest.2)

/-- The stored state of a `GANBLR` instance: the fields set in `__init__`
(lines 14-20 of `ganblr.py`). -/
structure GState where
  d : Option DataUtilsM
  genWeights : Option GenW
  batchSize : Option Nat
  epochsF : Option Nat
  k : Option Nat
  constraints : Option (List Nat)

/-- `GANBLR.fit` (lines 41-60 of `ganblr.py`): normalize `verbose`, wrap
the data, store `k` and `batch_size`, run the warmup, draw the initial
synthetic sample, build the fixed discriminator labels
(`ones(data_size)` then `zeros(data_size)`), run `epochs` adversarial
rounds, and return the final state together with the round trace.
`self.epochs` is never assigned by `fit`, matching the source. -/
def fitModel (env : TrainEnv) (x : List Row) (y : List Nat)
    (k batchSize epochs warmupEpochs : Nat) (verbose : PyArg)
    (seeds : Nat → Nat) : GState × List RoundRec :=
  let _vnorm := normVerbose verbose
  let d : DataUtilsM := ⟨x, y⟩
  let gw0 := env.warmup k batchSize warmupEpochs (seeds 0)
  let syn0 := env.synthesize gw0 d.dataSize (seeds 1)
  let labels := List.replicate d.dataSize (1 : ℝ) ++ List.replicate d.dataSize (0 : ℝ)
  let res := fitRounds env d k (env.constraintPositions k) x labels batchSize
    seeds epochs (gw0, syn0, 2)
  ({ d := some d, genWeights := some res.2.1, batchSize := some batchSize,
     epochsF := none, k := some k,
     constraints := some (env.constraintPositions k) }, res.1)

/-- `GANBLR._run_generator` (lines 199-210 of `ganblr.py`) acting on the
stored state: build a brand-new single-layer softmax network over the
k-order encoding of the stored data and under the stored kernel
constraint, load the saved generator weights into it, fit for exactly one
epoch under the given loss scalar, store the resulting weights back and
discard the network.  The method reads `self.__d`, `self.k`,
`self.constraints`, `self.batch_size` and `self.__gen_weights` (and
nothing else of the instance), so `genFit` receives exactly those values;
no optimizer state exists to pass. -/
def runGeneratorM (env : TrainEnv) (st : GState) (loss : ℝ) (seed : Nat) :
    GState :=
  match st.d, st.genWeights, st.batchSize, st.k, st.constraints with
  | some d, some gw, some bs, some k, some cons =>
      { st with genWeights := some (env.genFit d k cons gw loss bs 1 seed) }
  | _, _, _, _, _ => st

/-- `fit` followed by `sample()` with the default size (the training set
size), the composition whose determinism the spec asserts. -/
def fitThenSample (env : TrainEnv) (x : List Row) (y : List Nat)
    (k batchSize epochs warmupEpochs : Nat) (verbose : PyArg)
    (seeds : Nat → Nat) (sampleSeed : Nat) : List Row × List Nat :=
  let res := fitModel env x y k batchSize epochs warmupEpochs verbose seeds
  env.synthesize (res.1.genWeights.getD ([], [])) x.length sampleSeed

/-- The classifier selected by `evaluate` (lines 85-96 of `ganblr.py`). -/
inductive EvalModel where
  | lr
  | rf
  | mlp
  | custom (hasFit : Bool)
deriving Repr, DecidableEq

/-- Lines 84-98 of `ganblr.py`: resolve the `model` argument of
`evaluate`.  The string comparisons come first; any other value is
accepted only if it exposes a `fit` attribute, otherwise
`Exception('Invalid Arugument')` is raised. -/
def resolveEvalModel (m : PyArg) : Except String EvalModel :=
  if m = .pyStr "lr" then .ok .lr
  else if m = .pyStr "rf" then .ok .rf
  else if m = .pyStr "mlp" then .ok .mlp
  else if hasFitAttr m then .ok (.custom true)
  else .error "Invalid Arugument"

/-- Observable side effects performed by `evaluate` after argument
resolution: sampling synthetic data, fitting the evaluation classifier and
predicting on the real rows. -/
inductive EvalEffect where
  | sampled
  | fittedClassifier
  | predicted
deriving Repr, DecidableEq

/-- `sklearn.metrics.accuracy_score`: the fraction of positions where the
prediction matches the true label. -/
def accuracyScore (y : List Nat) (pred : List Nat) : ℝ :=
  (((y.zip pred).countP (fun q => q.1 = q.2) : ℝ)) / (y.length : ℝ)

/-- Oracle for the sklearn evaluation classifiers: fitting the chosen
classifier on a synthetic dataset yields a predictor on raw rows. -/
structure EvalEnv where
  classifierFit : EvalModel → List Row × List Nat → Row → Nat

/-- `GANBLR.evaluate` (lines 62-103 of `ganblr.py`): resolve the `model`
argument; on failure raise before anything else happens (no synthetic
sample is drawn, no classifier fitted, the stored state untouched); on
success sample one synthetic dataset, fit the chosen classifier on it,
predict on the real rows and return the accuracy score.  The returned
triple carries the result, the list of side effects performed, and the
model state after the call. -/
def evaluateM (tenv : TrainEnv) (cenv : EvalEnv) (st : GState)
    (x : List Row) (y : List Nat) (marg : PyArg) (seed : Nat) :
    Except String ℝ × List EvalEffect × GState :=
  match resolveEvalModel marg with
  | .error e => (.error e, [], st)
  | .ok em =>
      let d := (st.d.getD ⟨[], []⟩)
      let syntheticData := tenv.synthesize (st.genWeights.getD ([], [])) d.dataSize seed
      let predictor := cenv.classifierFit em syntheticData
      let pred := x.map predictor
      (.ok (accuracyScore y pred),
       [.sampled, .fittedClassifier, .predicted], st)

/-- `sorted_result[:, :-1]` and `sorted_result[:, -1]` (line 180 of
`ganblr.py`): split the sampled matrix, whose last column is the class
node, into the feature block and the label column. -/
def sampleSplit (sorted : List (List Nat)) : List Row × List Nat :=
  (sorted.map (fun r => r.dropLast), sorted.map (fun r => (r.getLast?).getD 0))

/-- `GANBLR.sample` (lines 105-186 of `ganblr.py`) with its external
samplers abstracted: reconstruct the full CPD tables from the stored
generator kernel, build the class node's empirical distribution
(`class_counts / data_size`), forward-sample `size` rows (defaulting to
the training set size) through the pgmpy oracle `fwd`, split off the label
column, and optionally one-hot encode the feature block through the
sklearn oracle `oheEnc`. -/
def sampleM (fwd : List (List (List ℝ)) → List ℝ → Nat → Nat → List (List Nat))
    (oheEnc : List Row → List (List Nat))
    (d : DataUtilsM) (classCounts : List Nat) (numClasses : Nat)
    (kernel : List (List ℝ)) (masks : List (List (List Bool)))
    (size : Option Nat) (ohe : Bool) (seed : Nat) :
    List (List Nat) × List Nat :=
  let tables := fullCpdProbs numClasses kernel masks
  let yProbs := classCounts.map (fun c => (c : ℝ) / (d.dataSize : ℝ))
  let sampleSize := match size with
    | none => d.dataSize
    | some s => s
  let sorted := fwd tables yProbs sampleSize seed
  let xy := sampleSplit sorted
  if ohe then (oheEnc xy.1, xy.2) else xy

/-- Modelled from the spec: per-sample categorical cross-entropy, the
"standard categorical cross-entropy" term of the Elastic Softmax Loss
(`elr_loss` lives in `ganblr/utils.py`, which is not under `src/`). -/
def catCrossEntropy (yTrue yPred : List ℝ) : ℝ :=
  -((yTrue.zipWith (fun t p => t * Real.log p) yPred).sum)

/-- Modelled from the spec: the Elastic Softmax Loss `elr_loss(loss)`
(from `ganblr/utils.py`, not under `src/`), as constrained by the spec: an
implementation-defined per-sample combination of categorical cross-entropy
with a correction term scaled by the scalar `loss`.  The correction term
`corr` is kept abstract, exactly as the spec leaves it. -/
def elrLossSample (lossParam : ℝ) (corr : List ℝ → List ℝ → ℝ)
    (yTrue yPred : List ℝ) : ℝ :=
  catCrossEntropy yTrue yPred + lossParam * corr yTrue yPred

/-- The Elastic Softmax Loss applied to a batch of (true one-hot label,
predicted probability) row pairs. -/
def elrLossBatch (lossParam : ℝ) (corr : List ℝ → List ℝ → ℝ)
    (yTrue yPred : List (List ℝ)) : List ℝ :=
  (yTrue.zip yPred).map (fun q => elrLossSample lossParam corr q.1 q.2)

/-- Plain categorical cross-entropy applied to the same batch shape. -/
def catCrossEntropyBatch (yTrue yPred : List (List ℝ)) : List ℝ :=
  (yTrue.zip yPred).map (fun q => catCrossEntropy q.1 q.2)

end

theorem countTrue_nil : countTrue [] = 0 := rfl

theorem countTrue_cons (b : Bool) (bs : List Bool) :
    countTrue (b :: bs) = (if b then 1 else 0) + countTrue bs := by
  cases b <;> simp [countTrue, List.count_cons] <;> omega

theorem countTrue_append (a b : List Bool) :
    countTrue (a ++ b) = countTrue a + countTrue b := by
  simp [countTrue, List.count_append]

theorem countTrue_flatten (bss : List (List Bool)) :
    countTrue bss.flatten = (bss.map countTrue).sum := by
  induction bss with
  | nil => rfl
  | cons b bs ih => simp [countTrue_append, ih]

theorem countTrue_pos {bs : List Bool} (h : true ∈ bs) : 0 < countTrue bs :=
  List.count_pos_iff.mpr h

theorem scatter_length (bs : List Bool) (vs : List ℝ) :
    (scatter bs vs).length = bs.length := by
  induction bs generalizing vs with
  | nil => simp [scatter]
  | cons b bs ih => cases b <;> cases vs <;> simp [scatter, ih]

theorem scatter_append (b1 b2 : List Bool) (v1 v2 : List ℝ)
    (h : v1.length = countTrue b1) :
    scatter (b1 ++ b2) (v1 ++ v2) = scatter b1 v1 ++ scatter b2 v2 := by
  induction b1 generalizing v1 with
  | nil =>
    have : v1 = [] := List.length_eq_zero.mp (by simpa [countTrue_nil] using h)
    subst this
    simp [scatter]
  | cons b bs ih =>
    cases b with
    | false =>
      rw [countTrue_cons] at h
      simp only [List.cons_append, scatter, List.append_eq]
      rw [ih _ (by simp at h; omega)]
    | true =>
      cases v1 with
      | nil => rw [countTrue_cons] at h; simp at h; omega
      | cons v vs =>
        rw [countTrue_cons] at h
        simp only [List.cons_append, scatter, List.append_eq]
        rw [ih _ (by simp at h; omega)]

theorem scatter_sum (bs : List Bool) (vs : List ℝ)
    (h : vs.length = countTrue bs) : (scatter bs vs).sum = vs.sum := by
  induction bs generalizing vs with
  | nil =>
    have : vs = [] := List.length_eq_zero.mp (by simpa [countTrue_nil] using h)
    subst this
    simp [scatter]
  | cons b bs ih =>
    cases b with
    | false =>
      rw [countTrue_cons] at h
      simp [scatter, ih vs (by simp at h; omega)]
    | true =>
      cases vs with
      | nil => rw [countTrue_cons] at h; simp at h; omega
      | cons v vs =>
        rw [countTrue_cons] at h
        simp [scatter, ih vs (by simp at h; omega)]

theorem sliceBy_length (sizes : List Nat) (l : List α) :
    (sliceBy sizes l).length = sizes.length := by
  induction sizes generalizing l with
  | nil => simp [sliceBy]
  | cons n ns ih => simp [sliceBy, ih]

theorem sliceBy_map_length (sizes : List Nat) (l : List α)
    (h : sizes.sum ≤ l.length) :
    (sliceBy sizes l).map List.length = sizes := by
  induction sizes generalizing l with
  | nil => simp [sliceBy]
  | cons n ns ih =>
    simp only [List.sum_cons] at h
    simp only [sliceBy, List.map_cons, List.length_take]
    rw [Nat.min_eq_left (by omega), ih _ (by simp [List.length_drop]; omega)]

theorem sliceBy_append (s1 s2 : List Nat) (l : List α) :
    sliceBy (s1 ++ s2) l = sliceBy s1 l ++ sliceBy s2 (l.drop s1.sum) := by
  induction s1 generalizing l with
  | nil => simp [sliceBy]
  | cons n ns ih =>
    simp only [List.cons_append, sliceBy, List.append_eq, ih, List.drop_drop,
      List.sum_cons]

theorem mem_of_mem_sliceBy {sizes : List Nat} {l : List α} {g : List α}
    (hg : g ∈ sliceBy sizes l) {a : α} (ha : a ∈ g) : a ∈ l := by
  induction sizes generalizing l with
  | nil => simp [sliceBy] at hg
  | cons n ns ih =>
    simp only [sliceBy, List.mem_cons] at hg
    rcases hg with h | h
    · exact List.mem_of_mem_take (h ▸ ha)
    · exact List.mem_of_mem_drop (ih h)

theorem chunks_flatten (n : Nat) (hn : n ≠ 0) (ps : List (List α))
    (h : ∀ p ∈ ps, p.length = n) : chunks n ps.flatten = ps := by
  induction ps with
  | nil => simp [chunks, hn]
  | cons p ps ih =>
    have hp : p.length = n := h p (by simp)
    have hpne : p ≠ [] := by
      intro e
      rw [e] at hp
      simp at hp
      exact hn hp.symm
    obtain ⟨q, qs, rfl⟩ := List.exists_cons_of_ne_nil hpne
    rw [List.flatten_cons, List.cons_append, chunks]
    simp only [hn, if_false]
    rw [← List.cons_append, List.take_left' hp, List.drop_left' hp]
    exact congrArg _ (ih (fun p hmem => h p (by simp [hmem])))

theorem flatten_getD_uniform {β : Type} (ls : List (List β)) (k : Nat)
    (h : ∀ l ∈ ls, l.length = k) (i r : Nat) (hi : i < ls.length)
    (hr : r < k) (d : β) :
    (ls.flatten).getD (i * k + r) d = (ls.getD i []).getD r d := by
  induction ls generalizing i with
  | nil => simp at hi
  | cons l ls ih =>
    have hl : l.length = k := h l (by simp)
    cases i with
    | zero =>
      rw [List.flatten_cons, List.getD_cons_zero]
      rw [List.getD_eq_getElem?_getD, List.getD_eq_getElem?_getD]
      rw [Nat.zero_mul, Nat.zero_add]
      rw [List.getElem?_append_left (by omega)]
    | succ i =>
      rw [List.flatten_cons, List.getD_cons_succ]
      rw [List.getD_eq_getElem?_getD (l ++ ls.flatten)]
      rw [List.getElem?_append_right (by rw [hl]; nlinarith)]
      have harith : (i + 1) * k + r - l.length = i * k + r := by
        rw [hl]; ring_nf; omega
      rw [harith, ← List.getD_eq_getElem?_getD]
      exact ih (fun l hmem => h l (by simp [hmem])) i (by simpa using hi)

theorem sum_range_getD (l : List ℝ) :
    ((List.range l.length).map (fun i => l.getD i 0)).sum = l.sum := by
  induction l with
  | nil => simp
  | cons a l ih =>
    rw [List.length_cons, List.range_succ_eq_map, List.map_cons, List.map_map]
    simp only [List.getD_cons_zero, Function.comp_def, Nat.succ_eq_add_one,
      List.getD_cons_succ]
    rw [List.sum_cons, ih, List.sum_cons]

theorem sum_map_div (l : List ℝ) (s : ℝ) :
    (l.map (fun a => a / s)).sum = l.sum / s := by
  induction l with
  | nil => simp
  | cons a l ih => simp [ih, add_div]

theorem range_map_getD {β : Type} (n c : Nat) (hc : c < n) (f : Nat → β)
    (d : β) : (((List.range n).map f).getD c d) = f c := by
  rw [List.getD_eq_getElem?_getD, List.getElem?_map, List.getElem?_range hc]
  rfl

theorem zipWith_getD {β γ δ : Type} (f : β → γ → δ) (l1 : List β)
    (l2 : List γ) (i : Nat) (h1 : i < l1.length) (h2 : i < l2.length)
    (d1 : β) (d2 : γ) (d : δ) :
    (List.zipWith f l1 l2).getD i d = f (l1.getD i d1) (l2.getD i d2) := by
  induction l1 generalizing l2 i with
  | nil => simp at h1
  | cons a l1 ih =>
    cases l2 with
    | nil => simp at h2
    | cons b l2 =>
      cases i with
      | zero => simp
      | succ i =>
        simp only [List.zipWith_cons_cons, List.getD_cons_succ]
        exact ih l2 i (by simpa using h1) (by simpa using h2)

theorem scatter_rep_flatten (C : Nat) (bs : List Bool) (vss : List (List ℝ))
    (hC : vss.length = C) (h : ∀ v ∈ vss, v.length = countTrue bs) :
    scatter ((List.replicate C bs).flatten) vss.flatten =
      (vss.map (scatter bs)).flatten := by
  induction vss generalizing C with
  | nil =>
    subst hC
    simp [scatter]
  | cons v vs ih =>
    subst hC
    rw [List.length_cons, List.replicate_succ, List.flatten_cons,
      List.flatten_cons]
    rw [scatter_append _ _ _ _ (h v (by simp))]
    rw [List.map_cons, List.flatten_cons, ih _ rfl
      (fun u hu => h u (by simp [hu]))]

theorem scatter_flatten₂ (bss : List (List Bool)) (vss : List (List ℝ))
    (hlen : bss.length = vss.length)
    (h : ∀ i, (vss.getD i []).length = countTrue (bss.getD i [])) :
    scatter bss.flatten vss.flatten =
      (List.zipWith (fun a b => scatter a b) bss vss).flatten := by
  induction bss generalizing vss with
  | nil =>
    cases vss with
    | nil => simp [scatter]
    | cons v vs => simp at hlen
  | cons b bs ih =>
    cases vss with
    | nil => simp at hlen
    | cons v vs =>
      have hv0 : v.length = countTrue b := by simpa using h 0
      rw [List.flatten_cons, List.flatten_cons]
      rw [scatter_append _ _ _ _ hv0]
      rw [List.zipWith_cons_cons, List.flatten_cons]
      rw [ih vs (by simpa using hlen) (fun i => by simpa using h (i + 1))]

theorem colSum_pos (g : List (List ℝ)) (c : Nat) (hne : g ≠ [])
    (h : ∀ row ∈ g, 0 < row.getD c 0) : 0 < colSum g c := by
  apply List.sum_pos
  · intro x hx
    obtain ⟨row, hrow, rfl⟩ := List.mem_map.mp hx
    exact h row hrow
  · simpa using hne

theorem colSum_normGroup (C : Nat) (g : List (List ℝ)) (c : Nat) (hc : c < C)
    (hs : colSum g c ≠ 0) : colSum (normGroup C g) c = 1 := by
  unfold colSum normGroup
  rw [List.map_map]
  simp only [Function.comp_def]
  have hfun : ∀ r ∈ g,
      (((List.range C).map (fun c' => r.getD c' 0 / colSum g c')).getD c 0) =
        r.getD c 0 / colSum g c := by
    intro r _
    exact range_map_getD C c hc _ 0
  rw [List.map_congr_left (fun r hr => hfun r hr)]
  have : g.map (fun r => r.getD c 0 / colSum g c) =
      (g.map (fun r => r.getD c 0)).map (fun a => a / colSum g c) := by
    rw [List.map_map]
    rfl
  rw [this, sum_map_div]
  exact div_self hs

theorem normGroup_length (C : Nat) (g : List (List ℝ)) :
    (normGroup C g).length = g.length := by
  simp [normGroup]

theorem expM_row_getD_pos (rw : List ℝ) (c : Nat) (hc : c < rw.length) :
    0 < (rw.map Real.exp).getD c 0 := by
  rw [List.getD_eq_getElem?_getD, List.getElem?_map,
    List.getElem?_eq_getElem hc]
  simpa using Real.exp_pos _

theorem mem_expM {row : List ℝ} {w : List (List ℝ)} (h : row ∈ expM w) :
    ∃ rw ∈ w, row = rw.map Real.exp := by
  simp only [expM, List.mem_map] at h
  obtain ⟨rw, hrw, hr⟩ := h
  exact ⟨rw, hrw, hr.symm⟩

theorem getD_map {β γ : Type} (f : β → γ) (l : List β) (i : Nat)
    (hi : i < l.length) (d : β) (d' : γ) :
    (l.map f).getD i d' = f (l.getD i d) := by
  rw [List.getD_eq_getElem?_getD, List.getElem?_map,
    List.getElem?_eq_getElem hi, List.getD_eq_getElem?_getD,
    List.getElem?_eq_getElem hi]
  rfl

theorem getD_out {β : Type} (l : List β) (i : Nat) (h : l.length ≤ i)
    (d : β) : l.getD i d = d := by
  rw [List.getD_eq_getElem?_getD, List.getElem?_eq_none h]
  rfl

theorem getD_mem {β : Type} (l : List β) (i : Nat) (hi : i < l.length)
    (d : β) : l.getD i d ∈ l := by
  rw [List.getD_eq_getElem?_getD, List.getElem?_eq_getElem hi]
  exact List.getElem_mem hi

theorem mem_zipWith {β γ δ : Type} {f : β → γ → δ} {as : List β}
    {bs : List γ} {p : δ} (hp : p ∈ List.zipWith f as bs) :
    ∃ a ∈ as, ∃ b ∈ bs, p = f a b := by
  induction as generalizing bs with
  | nil => simp at hp
  | cons a as ih =>
    cases bs with
    | nil => simp at hp
    | cons b bs =>
      rw [List.zipWith_cons_cons, List.mem_cons] at hp
      rcases hp with h | h
      · exact ⟨a, by simp, b, by simp, h⟩
      · obtain ⟨a', ha', b', hb', hp'⟩ := ih h
        exact ⟨a', by simp [ha'], b', by simp [hb'], hp'⟩

/-- Core reconstruction lemma for one feature node: in the table
`fullCpdOf` builds from a feature's normalized constraint groups, the
column indexed by class `c` and parent combination `r` sums to `1`
whenever that parent combination has at least one structurally valid
value. -/
theorem featureTable_colSum_one (C : Nat) (m : List (List Bool))
    (kernel : List (List ℝ))
    (hker : ∀ rw ∈ kernel, rw.length = C)
    (hlen : (m.map countTrue).sum ≤ kernel.length)
    (hrect : ∀ row ∈ m, row.length = ownCardOf m)
    (c r : Nat) (hc : c < C) (hr : r < m.length)
    (htrue : true ∈ m.getD r []) :
    colSum
      (fullCpdOf C m
        (((sliceBy (m.map countTrue) (expM kernel)).map (normGroup C)).flatten))
      (c * m.length + r) = 1 := by
  set groups := sliceBy (m.map countTrue) (expM kernel) with hgroups
  set cp := (groups.map (normGroup C)).flatten with hcp
  set w := ownCardOf m with hwdef
  have hexplen : (expM kernel).length = kernel.length := by simp [expM]
  have hlenE : (m.map countTrue).sum ≤ (expM kernel).length := by
    rw [hexplen]; exact hlen
  have hGlen : groups.length = m.length := by
    rw [hgroups, sliceBy_length, List.length_map]
  have hGsizes : groups.map List.length = m.map countTrue :=
    sliceBy_map_length _ _ hlenE
  have hmrow : m.getD r [] ∈ m := getD_mem m r hr []
  have hw : (m.getD r []).length = w := hrect _ hmrow
  have hwpos : 0 < w := by
    rw [← hw]
    exact List.length_pos.mpr (List.ne_nil_of_mem htrue)
  -- length of each constraint group equals its mask row's valid count
  have hgrlen_all : ∀ i, i < m.length →
      (groups.getD i []).length = countTrue (m.getD i []) := by
    intro i hi
    have h1 : (groups.map List.length).getD i 0 =
        (m.map countTrue).getD i 0 := by rw [hGsizes]
    rw [getD_map List.length groups i (by omega) [] 0,
      getD_map countTrue m i hi [] 0] at h1
    exact h1
  -- the group of the claimed column is nonempty and strictly positive
  have hgrne : groups.getD r [] ≠ [] := by
    intro e
    have hgl := hgrlen_all r hr
    rw [e, List.length_nil] at hgl
    have hposc := countTrue_pos htrue
    omega
  have hgmem : groups.getD r [] ∈ groups := getD_mem groups r (by omega) []
  have hpos : 0 < colSum (groups.getD r []) c := by
    apply colSum_pos _ _ hgrne
    intro row hrow
    obtain ⟨rw0, hrw0, hre⟩ :=
      mem_expM (mem_of_mem_sliceBy (hgroups ▸ hgmem) hrow)
    rw [hre]
    exact expM_row_getD_pos _ _ (by rw [hker rw0 hrw0]; exact hc)
  have hone : colSum (normGroup C (groups.getD r [])) c = 1 :=
    colSum_normGroup C _ c hc (ne_of_gt hpos)
  -- per-class per-row value lists
  set rowVals : Nat → List (List ℝ) :=
    fun j => groups.map (fun g => (normGroup C g).map (fun row => row.getD j 0))
    with hrowVals
  have hcplen : cp.length = (m.map countTrue).sum := by
    rw [hcp, List.length_flatten, List.map_map]
    have heq : groups.map (List.length ∘ normGroup C) = groups.map List.length := by
      simp only [Function.comp_def]
      exact List.map_congr_left (fun g _ => normGroup_length C g)
    rw [heq, hGsizes]
  -- step 1: decompose the scatter over the class-repeated mask
  have hstep1 :
      scatter ((List.replicate C m.flatten).flatten)
        ((transposeM C cp).flatten) =
      ((List.range C).map
        (fun j => scatter m.flatten (cp.map (fun row => row.getD j 0)))).flatten := by
    rw [transposeM]
    rw [scatter_rep_flatten C m.flatten _ (by simp)
      (fun v hv => by
        obtain ⟨j, _, rfl⟩ := List.mem_map.mp hv
        simp [hcplen, countTrue_flatten])]
    rw [List.map_map]
    rfl
  -- step 2: decompose each class block over the mask rows
  have hstep2 : ∀ j, scatter m.flatten (cp.map (fun row => row.getD j 0)) =
      (List.zipWith (fun a b => scatter a b) m (rowVals j)).flatten := by
    intro j
    have hmf : cp.map (fun row => row.getD j 0) = (rowVals j).flatten := by
      rw [hcp, List.map_flatten, List.map_map]
      simp only [Function.comp_def, hrowVals]
    rw [hmf]
    apply scatter_flatten₂
    · rw [hrowVals]; simp [hGlen]
    · intro i
      by_cases hi : i < m.length
      · rw [hrowVals]
        rw [getD_map _ groups i (by omega) [] []]
        rw [List.length_map, normGroup_length]
        exact hgrlen_all i hi
      · rw [getD_out _ _ (by rw [hrowVals]; simp; omega) [],
          getD_out _ _ (by omega) []]
        rfl
  -- the flat scattered vector is the flattening of all (class, row) pieces
  set bigPieces : List (List ℝ) :=
    ((List.range C).map
      (fun j => List.zipWith (fun a b => scatter a b) m (rowVals j))).flatten
    with hbig
  have hflat :
      scatter ((List.replicate C m.flatten).flatten)
        ((transposeM C cp).flatten) = bigPieces.flatten := by
    rw [hstep1]
    rw [List.map_congr_left (fun j _ => hstep2 j)]
    have hLm : (List.range C).map
        (fun j => (List.zipWith (fun a b => scatter a b) m (rowVals j)).flatten) =
        ((List.range C).map
          (fun j => List.zipWith (fun a b => scatter a b) m (rowVals j))).map
          List.flatten := by
      rw [List.map_map]
      rfl
    rw [hLm, ← List.flatten_flatten]
  -- every (class, row) piece has the feature's own cardinality as length
  have hzipmem : ∀ j, ∀ p ∈ List.zipWith (fun a b => scatter a b) m (rowVals j),
      p.length = w := by
    intro j p hp
    obtain ⟨a, ha, b, _, rfl⟩ := mem_zipWith hp
    rw [scatter_length]
    exact hrect a ha
  have hbigmem : ∀ p ∈ bigPieces, p.length = w := by
    intro p hp
    rw [hbig] at hp
    obtain ⟨l, hl, hpl⟩ := List.mem_flatten.mp hp
    obtain ⟨j, _, rfl⟩ := List.mem_map.mp hl
    exact hzipmem j p hpl
  have hrvlen : ∀ j, (rowVals j).length = m.length := by
    intro j
    simp only [hrowVals]
    rw [List.length_map, hGlen]
  have hinlen : ∀ l ∈ (List.range C).map
      (fun j => List.zipWith (fun a b => scatter a b) m (rowVals j)),
      l.length = m.length := by
    intro l hl
    obtain ⟨j, _, rfl⟩ := List.mem_map.mp hl
    rw [List.length_zipWith, hrvlen]
    exact Nat.min_self _
  -- reshaping the flat vector recovers exactly the (class, row) pieces
  have hchunks : chunks w (scatter ((List.replicate C m.flatten).flatten)
      ((transposeM C cp).flatten)) = bigPieces := by
    rw [hflat]
    exact chunks_flatten w (by omega) bigPieces hbigmem
  have hbiglen : bigPieces.length = C * m.length := by
    rw [hbig, List.length_flatten, List.map_map]
    have heq : (List.range C).map
        (List.length ∘ fun j => List.zipWith (fun a b => scatter a b) m (rowVals j)) =
        List.replicate C m.length := by
      apply List.eq_replicate_iff.mpr
      refine ⟨by simp, ?_⟩
      intro b hb
      obtain ⟨j, _, rfl⟩ := List.mem_map.mp hb
      simp only [Function.comp_def]
      rw [List.length_zipWith, hrvlen]
      exact Nat.min_self _
    rw [heq, List.sum_replicate, smul_eq_mul]
  have hjlt : c * m.length + r < bigPieces.length := by
    rw [hbiglen]
    calc c * m.length + r < c * m.length + m.length := by omega
    _ = (c + 1) * m.length := by ring
    _ ≤ C * m.length := Nat.mul_le_mul_right _ (by omega)
  -- the row of the claimed column inside the pieces
  have hrowJ : bigPieces.getD (c * m.length + r) [] =
      scatter (m.getD r []) ((rowVals c).getD r []) := by
    rw [hbig]
    rw [flatten_getD_uniform _ m.length hinlen c r (by simpa using hc) hr []]
    rw [range_map_getD C c hc _ []]
    exact zipWith_getD _ m (rowVals c) r hr (by rw [hrvlen]; exact hr) [] [] []
  have hvlist : (rowVals c).getD r [] =
      (normGroup C (groups.getD r [])).map (fun row => row.getD c 0) := by
    simp only [hrowVals]
    exact getD_map _ groups r (by omega) [] []
  have hvlist_len : ((rowVals c).getD r []).length = countTrue (m.getD r []) := by
    rw [hvlist, List.length_map, normGroup_length]
    exact hgrlen_all r hr
  have hvsum : ((rowVals c).getD r []).sum = 1 := by
    rw [hvlist]
    exact hone
  -- unfold the table and compute the column sum
  show colSum (addUniformZero (transposeM w (chunks w
      (scatter ((List.replicate C m.flatten).flatten)
        ((transposeM C cp).flatten))))) (c * m.length + r) = 1
  rw [hchunks]
  unfold addUniformZero colSum transposeM
  rw [List.map_map]
  simp only [Function.comp_def]
  have hterm : ∀ i ∈ List.range w,
      (bigPieces.map (fun row => row.getD i 0)).getD (c * m.length + r) 0 =
        (bigPieces.getD (c * m.length + r) []).getD i 0 := by
    intro i _
    exact getD_map _ bigPieces _ hjlt [] 0
  rw [List.map_congr_left hterm, hrowJ]
  have hrowJlen : (scatter (m.getD r []) ((rowVals c).getD r [])).length = w := by
    rw [scatter_length, hw]
  have hsr := sum_range_getD (scatter (m.getD r []) ((rowVals c).getD r []))
  rw [hrowJlen] at hsr
  rw [hsr, scatter_sum _ _ hvlist_len]
  exact hvsum

/-- The table list built for a leading feature splits off from the rest:
the first feature consumes exactly its own constraint groups and encoded
columns of the kernel, and the remaining features see the remaining kernel
rows. -/
theorem fullCpdProbs_cons (C : Nat) (kernel : List (List ℝ))
    (m : List (List Bool)) (ms : List (List (List Bool)))
    (hlen : (m.map countTrue).sum ≤ kernel.length) :
    fullCpdProbs C kernel (m :: ms) =
      fullCpdOf C m
        (((sliceBy (m.map countTrue) (expM kernel)).map (normGroup C)).flatten) ::
      fullCpdProbs C (kernel.drop (m.map countTrue).sum) ms := by
  have hexplen : (expM kernel).length = kernel.length := by simp [expM]
  have hconsA : constraintsOf (m :: ms) = m.map countTrue ++ constraintsOf ms := by
    simp [constraintsOf]
  have hdropE : (expM kernel).drop (m.map countTrue).sum =
      expM (kernel.drop (m.map countTrue).sum) := by
    simp [expM, List.map_drop]
  have hcpsplit : cpdProbs C kernel (m :: ms) =
      ((sliceBy (m.map countTrue) (expM kernel)).map (normGroup C)).flatten ++
        cpdProbs C (kernel.drop (m.map countTrue).sum) ms := by
    unfold cpdProbs
    rw [hconsA, sliceBy_append, List.map_append, List.flatten_append, hdropE]
  have hAlen :
      (((sliceBy (m.map countTrue) (expM kernel)).map (normGroup C)).flatten).length =
        (m.map countTrue).sum := by
    rw [List.length_flatten, List.map_map]
    have heq : (sliceBy (m.map countTrue) (expM kernel)).map
        (List.length ∘ normGroup C) =
        (sliceBy (m.map countTrue) (expM kernel)).map List.length := by
      simp only [Function.comp_def]
      exact List.map_congr_left (fun g _ => normGroup_length C g)
    rw [heq, sliceBy_map_length _ _ (by rw [hexplen]; exact hlen)]
  unfold fullCpdProbs
  rw [hcpsplit]
  have hhou : houOf (m :: ms) = (m.map countTrue).sum :: houOf ms := by
    simp [houOf]
  rw [hhou]
  simp only [sliceBy]
  rw [List.take_left' hAlen, List.drop_left' hAlen]
  rw [List.zip_cons_cons, List.map_cons]

/-- The contiguous constraint groups of the generator kernel, as sliced by
`GANBLR.sample` at the cumulative-sum boundaries of `constraints_`
(lines 128-132 of `ganblr.py`). -/
noncomputable def constraintGroups (kernel : List (List ℝ))
    (masks : List (List (List Bool))) : List (List (List ℝ)) :=
  sliceBy (constraintsOf masks) (expM kernel)

/-- The sum that the claim asserts equals one: the values of a
reconstructed CPD table over the feature's own cardinality, for the column
of class `c` and parent combination `r`. -/
noncomputable def tableColSum (C : Nat) (kernel : List (List ℝ))
    (masks : List (List (List Bool))) (f c r : Nat) : ℝ :=
  colSum ((fullCpdProbs C kernel masks).getD f [])
    (c * (masks.getD f []).length + r)

/-- C1 (amended): for every generator kernel of the encoded shape and
every feature node, every column of the reconstructed full CPD table whose
parent combination is structurally valid (its have-value mask row contains
at least one `true`) sums to `1` over the feature's own cardinality. -/
theorem cpd_tables_column_stochastic (C : Nat) (kernel : List (List ℝ))
    (masks : List (List (List Bool)))
    (hker : ∀ rw ∈ kernel, rw.length = C)
    (hlen : kernel.length = (constraintsOf masks).sum)
    (hrect : ∀ mk ∈ masks, ∀ row ∈ mk, row.length = ownCardOf mk)
    (f : Nat) (hf : f < masks.length)
    (c r : Nat) (hc : c < C) (hr : r < (masks.getD f []).length)
    (htrue : true ∈ (masks.getD f []).getD r []) :
    tableColSum C kernel masks f c r = 1 := by
  unfold tableColSum
  induction masks generalizing kernel f with
  | nil => simp at hf
  | cons m ms ih =>
    have hsum : (constraintsOf (m :: ms)).sum =
        (m.map countTrue).sum + (constraintsOf ms).sum := by
      simp [constraintsOf]
    have hmle : (m.map countTrue).sum ≤ kernel.length := by
      rw [hlen, hsum]; omega
    rw [fullCpdProbs_cons C kernel m ms hmle]
    cases f with
    | zero =>
      simp only [List.getD_cons_zero] at hr htrue ⊢
      exact featureTable_colSum_one C m kernel hker hmle
        (hrect m (by simp)) c r hc hr htrue
    | succ f =>
      simp only [List.getD_cons_succ] at hr htrue ⊢
      apply ih (kernel.drop (m.map countTrue).sum)
        (fun rw hrw => hker rw (List.mem_of_mem_drop hrw))
        (by rw [List.length_drop, hlen, hsum]; omega)
        (fun mk hmk => hrect mk (by simp [hmk]))
        f (by simpa using hf) hr htrue

/-- Witness for the amended C1 theorem at a concrete instance: one binary
class pair, one feature with a single always-valid parent combination and
zero kernel weights; the single reconstructed column sums to `1`. -/
theorem cpd_tables_column_stochastic_witness :
    tableColSum 2 [[(0 : ℝ), 0]] [[[true]]] 0 0 0 = 1 := by
  apply cpd_tables_column_stochastic 2 [[(0 : ℝ), 0]] [[[true]]]
    (by simp) (by simp [constraintsOf, countTrue]) (by simp [ownCardOf])
    0 (by simp) 0 0 (by norm_num) (by simp) (by simp)

/-- C1 counterexample: the claim that *every* (class, parent-combination)
column of a reconstructed CPD table sums to `1` fails on the concrete
instance with two classes, kernel `[[0, 0]]` and a single feature whose
have-value mask is `[[true], [false]]`: the second parent combination is
structurally invalid (its mask row is all `false`), and since `sample()`
passes `noise=0` to the uniform smoothing, its column stays all zero, so
the column for class `0` and parent combination `1` sums to `0`, not `1`. -/
theorem cpd_tables_column_not_stochastic_at_empty_row :
    (∀ rw ∈ [[(0 : ℝ), 0]], rw.length = 2) ∧
    ([[(0 : ℝ), 0]] : List (List ℝ)).length =
      (constraintsOf [[[true], [false]]]).sum ∧
    (∀ mk ∈ [[[true], [false]]], ∀ row ∈ mk, row.length = ownCardOf mk) ∧
    1 < ([[[true], [false]]].getD 0 [] : List (List Bool)).length ∧
    tableColSum 2 [[(0 : ℝ), 0]] [[[true], [false]]] 0 0 1 = 0 := by
  refine ⟨by simp, by simp [constraintsOf, countTrue], by simp [ownCardOf],
    by simp, ?_⟩
  unfold tableColSum fullCpdProbs cpdProbs constraintsOf houOf fullCpdOf
  simp only [countTrue, List.map_cons, List.map_nil, List.count_cons,
    List.count_nil, List.flatten]
  norm_num [sliceBy, expM, normGroup, colSum, transposeM, scatter, chunks,
    addUniformZero, ownCardOf, Real.exp_zero, List.range_succ]

/-- C10: because the raw generator weights are exponentiated first, every
entry of the pre-normalization matrix is strictly positive, and for every
non-empty constraint group each column sum is strictly positive, so the
per-group normalizing division of `sample()` never divides by zero. -/
theorem constraint_group_colsums_positive (C : Nat)
    (kernel : List (List ℝ)) (masks : List (List (List Bool)))
    (hker : ∀ rw ∈ kernel, rw.length = C) :
    (∀ row ∈ expM kernel, ∀ v ∈ row, 0 < v) ∧
    (∀ g ∈ constraintGroups kernel masks, g ≠ [] →
      ∀ c, c < C → 0 < colSum g c) := by
  constructor
  · intro row hrow v hv
    obtain ⟨rw0, _, rfl⟩ := mem_expM hrow
    obtain ⟨a, _, rfl⟩ := List.mem_map.mp hv
    exact Real.exp_pos a
  · intro g hg hne c hc
    unfold constraintGroups at hg
    apply colSum_pos _ _ hne
    intro row hrow
    obtain ⟨rw0, hrw0, hre⟩ := mem_expM (mem_of_mem_sliceBy hg hrow)
    rw [hre]
    exact expM_row_getD_pos _ _ (by rw [hker rw0 hrw0]; exact hc)

/-- Witness for the C10 theorem at a concrete instance: the single
non-empty constraint group of the zero kernel has a positive first column
sum. -/
theorem constraint_group_colsums_positive_witness :
    0 < colSum ((constraintGroups [[(0 : ℝ), 0]] [[[true], [false]]]).getD 0 [])
      0 := by
  have h := constraint_group_colsums_positive 2 [[(0 : ℝ), 0]]
    [[[true], [false]]] (by simp)
  apply h.2 _ ?memb ?nonnil 0 (by norm_num)
  case memb =>
    apply getD_mem
    simp [constraintGroups, sliceBy, constraintsOf, countTrue]
  case nonnil =>
    simp [constraintGroups, sliceBy, constraintsOf, countTrue, expM]

/-- Specification of one adversarial round, written from the spec's
REFINING description: stack the real rows (labelled `1`) with the current
synthetic rows (labelled `0`), subsample 80 percent, fit a fresh
discriminator for exactly one epoch on the subsample, score the real rows,
compute the loss scalar, refine the generator for exactly one epoch under
it (rebuilding the constrained network over the k-order encoding of the
stored data, per spec 4.3), and resample synthetic data.  `d`, `k` and
`cons` are the wrapped data, the dependency order and the constraint
positions stored on the model before the loop; the seeds stand for the
random state the external collaborators consume. -/
def RoundSpec (env : TrainEnv) (d : DataUtilsM) (k : Nat) (cons : List Nat)
    (x : List Row) (n batchSize : Nat)
    (prevGW : GenW) (prevSyn : List Row) (rec : RoundRec) : Prop :=
  ∃ s1 s2 s3 s4 : Nat,
    rec.stacked = x ++ prevSyn ∧
    rec.labels = List.replicate n (1 : ℝ) ++ List.replicate n (0 : ℝ) ∧
    (rec.discIn, rec.discLab) = env.subsample 0.8 rec.stacked rec.labels s1 ∧
    rec.disc = env.discFit rec.discIn rec.discLab batchSize 1 s2 ∧
    rec.probFake = x.map (discPredict rec.disc) ∧
    rec.loss = (rec.probFake.map (fun p => -Real.log (1 - p))).sum /
      (rec.probFake.length : ℝ) ∧
    rec.genW = env.genFit d k cons prevGW rec.loss batchSize 1 s3 ∧
    rec.syn = env.synthesize rec.genW x.length s4

/-- The rounds of a trace chain correctly: each round consumes the
generator weights and the synthetic rows produced by the previous round
(or the warmup and initial sample for the first round). -/
def RoundChain (env : TrainEnv) (d : DataUtilsM) (k : Nat) (cons : List Nat)
    (x : List Row) (n batchSize : Nat) :
    GenW → List Row → List RoundRec → Prop
  | _, _, [] => True
  | gw, syn, rec :: rest =>
      RoundSpec env d k cons x n batchSize gw syn rec ∧
      RoundChain env d k cons x n batchSize rec.genW rec.syn.1 rest

theorem fitRounds_length (env : TrainEnv) (d : DataUtilsM) (k : Nat)
    (cons : List Nat) (x : List Row) (labels : List ℝ)
    (batchSize : Nat) (seeds : Nat → Nat) :
    ∀ (e : Nat) (st : GenW × (List Row × List Nat) × Nat),
      ((fitRounds env d k cons x labels batchSize seeds e st).1).length = e
  | 0, _ => rfl
  | e + 1, st => by
    simp only [fitRounds, List.length_cons]
    rw [fitRounds_length env d k cons x labels batchSize seeds e]

theorem fitRounds_chain (env : TrainEnv) (d : DataUtilsM) (k : Nat)
    (cons : List Nat) (x : List Row) (n batchSize : Nat)
    (seeds : Nat → Nat) :
    ∀ (e : Nat) (gw : GenW) (syn : List Row × List Nat) (pos : Nat),
      RoundChain env d k cons x n batchSize gw syn.1
        ((fitRounds env d k cons x
          (List.replicate n (1 : ℝ) ++ List.replicate n 0)
          batchSize seeds e (gw, syn, pos)).1)
  | 0, _, _, _ => trivial
  | e + 1, gw, syn, pos => by
    simp only [fitRounds]
    constructor
    · exact ⟨seeds pos, seeds (pos + 1), seeds (pos + 2), seeds (pos + 3),
        rfl, rfl, Prod.mk.eta.symm ▸ rfl, rfl, rfl, rfl, rfl, rfl⟩
    · exact fitRounds_chain env d k cons x n batchSize seeds e _ _ _

/-- C3: `fit` performs, after the warmup and one initial sample, exactly
`epochs` adversarial rounds, and the rounds chain as the spec describes:
each stacks the real rows against the synthetic rows regenerated by the
previous round, subsamples 80 percent, fits a fresh one-epoch
discriminator, scores the real rows, refines the generator one epoch and
resamples. -/
theorem fit_epochs_rounds_in_order (env : TrainEnv) (x : List Row)
    (y : List Nat) (k batchSize epochs warmupEpochs : Nat) (verbose : PyArg)
    (seeds : Nat → Nat) :
    ((fitModel env x y k batchSize epochs warmupEpochs verbose seeds).2).length
        = epochs ∧
    RoundChain env ⟨x, y⟩ k (env.constraintPositions k) x x.length batchSize
      (env.warmup k batchSize warmupEpochs (seeds 0))
      (env.synthesize (env.warmup k batchSize warmupEpochs (seeds 0))
        x.length (seeds 1)).1
      (fitModel env x y k batchSize epochs warmupEpochs verbose seeds).2 := by
  constructor
  · exact fitRounds_length env ⟨x, y⟩ k (env.constraintPositions k) x _
      batchSize seeds epochs _
  · exact fitRounds_chain env ⟨x, y⟩ k (env.constraintPositions k) x x.length
      batchSize seeds epochs _ _ 2

theorem fitRounds_loss_shape (env : TrainEnv) (d : DataUtilsM) (k : Nat)
    (cons : List Nat) (x : List Row)
    (labels : List ℝ) (batchSize : Nat) (seeds : Nat → Nat) :
    ∀ (e : Nat) (st : GenW × (List Row × List Nat) × Nat),
      ∀ rec ∈ (fitRounds env d k cons x labels batchSize seeds e st).1,
        rec.probFake = x.map (discPredict rec.disc) ∧
        rec.loss = ((rec.probFake.map (fun p => -Real.log (1 - p))).sum) /
          (rec.probFake.length : ℝ)
  | 0, _, rec, hrec => by simp [fitRounds] at hrec
  | e + 1, st, rec, hrec => by
    simp only [fitRounds, List.mem_cons] at hrec
    rcases hrec with h | h
    · subst h
      exact ⟨rfl, rfl⟩
    · exact fitRounds_loss_shape env d k cons x labels batchSize seeds e _ rec h

/-- C2: in every adversarial round, the scalar loss handed to the
generator refinement is the mean over the real rows `x` of
`-log(1 - p)`, where `p` is the freshly trained discriminator's predicted
probability on the real rows only (the discriminator is applied to `x`,
not to the mixed training batch). -/
theorem round_loss_mean_neg_log (env : TrainEnv) (x : List Row)
    (y : List Nat) (k batchSize epochs warmupEpochs : Nat) (verbose : PyArg)
    (seeds : Nat → Nat) (i : Nat)
    (hi : i <
      ((fitModel env x y k batchSize epochs warmupEpochs verbose seeds).2).length) :
    ((fitModel env x y k batchSize epochs warmupEpochs verbose seeds).2.getD i
        default).probFake =
      x.map (discPredict
        ((fitModel env x y k batchSize epochs warmupEpochs verbose
          seeds).2.getD i default).disc) ∧
    ((fitModel env x y k batchSize epochs warmupEpochs verbose seeds).2.getD i
        default).loss =
      ((x.map (fun t => -Real.log (1 - discPredict
        ((fitModel env x y k batchSize epochs warmupEpochs verbose
          seeds).2.getD i default).disc t))).sum) / (x.length : ℝ) := by
  set rec := (fitModel env x y k batchSize epochs warmupEpochs verbose
    seeds).2.getD i default with hrec
  have hmem : rec ∈ (fitModel env x y k batchSize epochs warmupEpochs verbose
      seeds).2 := getD_mem _ i hi default
  have h := fitRounds_loss_shape env ⟨x, y⟩ k (env.constraintPositions k) x _
    batchSize seeds epochs _ rec hmem
  refine ⟨h.1, ?_⟩
  rw [h.2, h.1, List.map_map, List.length_map]
  rfl

/-- C5: `_run_generator` modifies only the stored generator weights: all
other model fields are untouched, and the new weights are the one-epoch
refinement of the previously stored weight values through a brand-new
network built over the stored data, dependency order and kernel
constraint.  The refinement is a pure function of exactly the fields the
source reads (`self.__d`, `self.k`, `self.constraints`,
`self.batch_size`, `self.__gen_weights`) — of which only the weight
values change across rounds — so no optimizer momentum or accumulator
state can survive: two states agreeing on those fields refine to the same
weights. -/
theorem run_generator_frame (env : TrainEnv) (st : GState) (loss : ℝ)
    (seed : Nat) (d0 : DataUtilsM) (gw : GenW) (bs k0 : Nat)
    (cons : List Nat)
    (hd : st.d = some d0) (hgw : st.genWeights = some gw)
    (hbs : st.batchSize = some bs) (hk : st.k = some k0)
    (hcons : st.constraints = some cons) :
    (runGeneratorM env st loss seed).d = st.d ∧
    (runGeneratorM env st loss seed).batchSize = st.batchSize ∧
    (runGeneratorM env st loss seed).epochsF = st.epochsF ∧
    (runGeneratorM env st loss seed).k = st.k ∧
    (runGeneratorM env st loss seed).constraints = st.constraints ∧
    (runGeneratorM env st loss seed).genWeights =
      some (env.genFit d0 k0 cons gw loss bs 1 seed) ∧
    (∀ st2 : GState, st2.d = st.d → st2.genWeights = st.genWeights →
      st2.batchSize = st.batchSize → st2.k = st.k →
      st2.constraints = st.constraints →
      (runGeneratorM env st2 loss seed).genWeights =
        (runGeneratorM env st loss seed).genWeights) := by
  unfold runGeneratorM
  rw [hd, hgw, hbs, hk, hcons]
  refine ⟨rfl, rfl, rfl, rfl, rfl, rfl, ?_⟩
  intro st2 h1 h2 h3 h4 h5
  simp only [h1, h2, h3, h4, h5]

/-- C8: with the random seeds wired explicitly through every sampling and
initialization step, two `fit()` + `sample()` runs on identical inputs and
identical seeds produce identical output arrays. -/
theorem fit_sample_deterministic (env : TrainEnv) (x1 x2 : List Row)
    (y1 y2 : List Nat) (k batchSize epochs warmupEpochs : Nat)
    (verbose : PyArg) (seeds1 seeds2 : Nat → Nat) (s1 s2 : Nat)
    (hx : x1 = x2) (hy : y1 = y2) (hseeds : seeds1 = seeds2) (hs : s1 = s2) :
    fitThenSample env x1 y1 k batchSize epochs warmupEpochs verbose seeds1 s1 =
      fitThenSample env x2 y2 k batchSize epochs warmupEpochs verbose
        seeds2 s2 := by
  subst hx
  subst hy
  subst hseeds
  subst hs
  rfl

/-- Witness for C8 determinism at a concrete instance. -/
theorem fit_sample_deterministic_witness :
    fitThenSample
      ⟨fun _ _ _ _ => ([], []), fun _ n _ => (List.replicate n [], List.replicate n 0),
       fun _ a b _ => (a, b), fun _ _ _ _ _ => ([], 0),
       fun _ _ _ g _ _ _ _ => g, fun _ => []⟩
      [[0]] [0] 0 32 1 1 (.pyInt 1) (fun i => i) 7 =
    fitThenSample
      ⟨fun _ _ _ _ => ([], []), fun _ n _ => (List.replicate n [], List.replicate n 0),
       fun _ a b _ => (a, b), fun _ _ _ _ _ => ([], 0),
       fun _ _ _ g _ _ _ _ => g, fun _ => []⟩
      [[0]] [0] 0 32 1 1 (.pyInt 1) (fun i => i) 7 :=
  fit_sample_deterministic _ _ _ _ _ _ _ _ _ _ _ _ _ _ rfl rfl rfl rfl

/-- C9: the model state produced by `fit` is independent of the `verbose`
argument: `verbose` is normalized on entry and never consulted afterwards,
so for any two `verbose` values the whole result coincides. -/
theorem fit_independent_of_verbose (env : TrainEnv) (x : List Row)
    (y : List Nat) (k batchSize epochs warmupEpochs : Nat)
    (v1 v2 : PyArg) (seeds : Nat → Nat) :
    fitModel env x y k batchSize epochs warmupEpochs v1 seeds =
      fitModel env x y k batchSize epochs warmupEpochs v2 seeds := rfl

/-- A concrete trivial training environment, used to instantiate theorems
with hypotheses on explicit inputs. -/
noncomputable def trivialEnv : TrainEnv :=
  ⟨fun _ _ _ _ => ([], []),
   fun _ n _ => (List.replicate n [], List.replicate n 0),
   fun _ a b _ => (a, b),
   fun _ _ _ _ _ => ([], 0),
   fun _ _ _ g _ _ _ _ => g,
   fun _ => []⟩

/-- Witness for C2 at a concrete instance: the single round of a
one-epoch `fit` run in the trivial environment scores the real rows and
averages `-log(1 - p)` over them. -/
theorem round_loss_mean_neg_log_witness :
    ((fitModel trivialEnv [[1]] [0] 0 32 1 1 (.pyInt 1)
        (fun i => i)).2.getD 0 default).probFake =
      [[1]].map (discPredict
        ((fitModel trivialEnv [[1]] [0] 0 32 1 1 (.pyInt 1)
          (fun i => i)).2.getD 0 default).disc) ∧
    ((fitModel trivialEnv [[1]] [0] 0 32 1 1 (.pyInt 1)
        (fun i => i)).2.getD 0 default).loss =
      (([[1]].map (fun t => -Real.log (1 - discPredict
        ((fitModel trivialEnv [[1]] [0] 0 32 1 1 (.pyInt 1)
          (fun i => i)).2.getD 0 default).disc t))).sum) /
        (([[1]] : List Row).length : ℝ) :=
  round_loss_mean_neg_log trivialEnv [[1]] [0] 0 32 1 1 (.pyInt 1)
    (fun i => i) 0 (by simp [fitModel, fitRounds])

/-- Witness for C5 at a concrete fitted state in the trivial environment:
all the fields `_run_generator` reads are set. -/
theorem run_generator_frame_witness :
    (runGeneratorM trivialEnv
        ⟨some ⟨[], []⟩, some ([], []), some 32, none, some 0, some []⟩
        0 0).d =
      (⟨some ⟨[], []⟩, some ([], []), some 32, none, some 0, some []⟩ :
        GState).d ∧
    (runGeneratorM trivialEnv
        ⟨some ⟨[], []⟩, some ([], []), some 32, none, some 0, some []⟩
        0 0).batchSize =
      (⟨some ⟨[], []⟩, some ([], []), some 32, none, some 0, some []⟩ :
        GState).batchSize ∧
    (runGeneratorM trivialEnv
        ⟨some ⟨[], []⟩, some ([], []), some 32, none, some 0, some []⟩
        0 0).epochsF =
      (⟨some ⟨[], []⟩, some ([], []), some 32, none, some 0, some []⟩ :
        GState).epochsF ∧
    (runGeneratorM trivialEnv
        ⟨some ⟨[], []⟩, some ([], []), some 32, none, some 0, some []⟩
        0 0).k =
      (⟨some ⟨[], []⟩, some ([], []), some 32, none, some 0, some []⟩ :
        GState).k ∧
    (runGeneratorM trivialEnv
        ⟨some ⟨[], []⟩, some ([], []), some 32, none, some 0, some []⟩
        0 0).constraints =
      (⟨some ⟨[], []⟩, some ([], []), some 32, none, some 0, some []⟩ :
        GState).constraints ∧
    (runGeneratorM trivialEnv
        ⟨some ⟨[], []⟩, some ([], []), some 32, none, some 0, some []⟩
        0 0).genWeights =
      some (trivialEnv.genFit ⟨[], []⟩ 0 [] ([], []) 0 32 1 0) ∧
    (∀ st2 : GState,
      st2.d =
        (⟨some ⟨[], []⟩, some ([], []), some 32, none, some 0, some []⟩ :
          GState).d →
      st2.genWeights =
        (⟨some ⟨[], []⟩, some ([], []), some 32, none, some 0, some []⟩ :
          GState).genWeights →
      st2.batchSize =
        (⟨some ⟨[], []⟩, some ([], []), some 32, none, some 0, some []⟩ :
          GState).batchSize →
      st2.k =
        (⟨some ⟨[], []⟩, some ([], []), some 32, none, some 0, some []⟩ :
          GState).k →
      st2.constraints =
        (⟨some ⟨[], []⟩, some ([], []), some 32, none, some 0, some []⟩ :
          GState).constraints →
      (runGeneratorM trivialEnv st2 0 0).genWeights =
        (runGeneratorM trivialEnv
          ⟨some ⟨[], []⟩, some ([], []), some 32, none, some 0, some []⟩
          0 0).genWeights) :=
  run_generator_frame trivialEnv _ 0 0 ⟨[], []⟩ ([], []) 32 0 []
    rfl rfl rfl rfl rfl

/-- Helper for C6: the resolution of the `model` argument fails exactly
when the argument is none of the recognized strings and exposes no `fit`
attribute. -/
theorem resolveEvalModel_error_iff (marg : PyArg) :
    resolveEvalModel marg = .error "Invalid Arugument" ↔
      (marg ≠ .pyStr "lr" ∧ marg ≠ .pyStr "rf" ∧ marg ≠ .pyStr "mlp" ∧
        hasFitAttr marg = false) := by
  unfold resolveEvalModel
  split_ifs with h1 h2 h3 h4 <;> simp_all

/-- C6: `evaluate` raises the invalid-argument error exactly when `model`
is none of the strings `lr`, `rf`, `mlp` and is not an object exposing a
`fit` method (in particular for the string `unknown_model` and the integer
`42`); on error it performs no side effect (no synthetic data is sampled,
no classifier fitted) and the model state is unchanged; for `model = 'lr'`
it returns a float accuracy value. -/
theorem evaluate_invalid_argument (tenv : TrainEnv) (cenv : EvalEnv)
    (st : GState) (x : List Row) (y : List Nat) (seed : Nat) :
    (∀ marg : PyArg,
      (evaluateM tenv cenv st x y marg seed).1 = .error "Invalid Arugument" ↔
        (marg ≠ .pyStr "lr" ∧ marg ≠ .pyStr "rf" ∧ marg ≠ .pyStr "mlp" ∧
          hasFitAttr marg = false)) ∧
    (∀ marg : PyArg,
      (evaluateM tenv cenv st x y marg seed).1 = .error "Invalid Arugument" →
        (evaluateM tenv cenv st x y marg seed).2.1 = [] ∧
        (evaluateM tenv cenv st x y marg seed).2.2 = st) ∧
    (∃ a : ℝ, (evaluateM tenv cenv st x y (.pyStr "lr") seed).1 = .ok a) := by
  refine ⟨?_, ?_, ?_⟩
  · intro marg
    rw [← resolveEvalModel_error_iff]
    unfold evaluateM
    cases hres : resolveEvalModel marg with
    | error e => simp
    | ok em => simp
  · intro marg herr
    unfold evaluateM at herr ⊢
    cases hres : resolveEvalModel marg with
    | error e => simp
    | ok em => rw [hres] at herr; simp at herr
  · exact ⟨_, rfl⟩

/-- Witness for C6: in the trivial environment, `model = 42` (an integer
with no `fit` attribute) makes `evaluate` raise the invalid-argument error
with no side effects and unchanged state, while `model = 'lr'` succeeds. -/
theorem evaluate_invalid_argument_witness :
    (evaluateM trivialEnv ⟨fun _ _ => 0⟩
        ⟨none, none, none, none, none, none⟩ [] [] (.pyInt 42) 0).1 =
      .error "Invalid Arugument" ∧
    (evaluateM trivialEnv ⟨fun _ _ => 0⟩
        ⟨none, none, none, none, none, none⟩ [] [] (.pyInt 42) 0).2.1 = [] ∧
    (∃ a : ℝ, (evaluateM trivialEnv ⟨fun _ _ => 0⟩
        ⟨none, none, none, none, none, none⟩ [] [] (.pyStr "lr") 0).1 =
      .ok a) := by
  have h := evaluate_invalid_argument trivialEnv ⟨fun _ _ => 0⟩
    ⟨none, none, none, none, none, none⟩ [] [] 0
  have herr : (evaluateM trivialEnv ⟨fun _ _ => 0⟩
      ⟨none, none, none, none, none, none⟩ [] [] (.pyInt 42) 0).1 =
      .error "Invalid Arugument" :=
    (h.1 (.pyInt 42)).mpr (by simp [hasFitAttr])
  exact ⟨herr, (h.2.1 (.pyInt 42) herr).1, h.2.2⟩

/-- C4: under the forward-sampling collaborator's contract (it returns
exactly the requested number of rows), `sample(size = N)` returns `N` rows
in `X` and `N` entries in `y`; with `size` omitted the row count defaults
to the training set size; and `ohe = True` one-hot encodes `X` while
leaving `y` unchanged. -/
theorem sample_size_and_ohe
    (fwd : List (List (List ℝ)) → List ℝ → Nat → Nat → List (List Nat))
    (oheEnc : List Row → List (List Nat)) (d : DataUtilsM)
    (classCounts : List Nat) (numClasses : Nat) (kernel : List (List ℝ))
    (masks : List (List (List Bool))) (seed : Nat)
    (hfwd : ∀ t yp n s, (fwd t yp n s).length = n) :
    (∀ N : Nat, 0 < N →
      (sampleM fwd oheEnc d classCounts numClasses kernel masks (some N)
        false seed).1.length = N ∧
      (sampleM fwd oheEnc d classCounts numClasses kernel masks (some N)
        false seed).2.length = N) ∧
    ((sampleM fwd oheEnc d classCounts numClasses kernel masks none
        false seed).1.length = d.dataSize ∧
     (sampleM fwd oheEnc d classCounts numClasses kernel masks none
        false seed).2.length = d.dataSize) ∧
    (∀ size : Option Nat,
      (sampleM fwd oheEnc d classCounts numClasses kernel masks size
          true seed).1 =
        oheEnc (sampleM fwd oheEnc d classCounts numClasses kernel masks size
          false seed).1 ∧
      (sampleM fwd oheEnc d classCounts numClasses kernel masks size
          true seed).2 =
        (sampleM fwd oheEnc d classCounts numClasses kernel masks size
          false seed).2) := by
  refine ⟨?_, ?_, ?_⟩
  · intro N _
    unfold sampleM sampleSplit
    simp [hfwd]
  · unfold sampleM sampleSplit
    simp [hfwd]
  · intro size
    unfold sampleM sampleSplit
    simp

/-- Witness for C4 at a concrete forward sampler satisfying the contract. -/
theorem sample_size_and_ohe_witness :
    (sampleM (fun _ _ n _ => List.replicate n [0, 0]) (fun xs => xs)
        ⟨[[5]], [1]⟩ [1] 2 [[0, 0]] [[[true], [false]]] (some 3)
        false 0).1.length = 3 ∧
    (sampleM (fun _ _ n _ => List.replicate n [0, 0]) (fun xs => xs)
        ⟨[[5]], [1]⟩ [1] 2 [[0, 0]] [[[true], [false]]] (some 3)
        false 0).2.length = 3 :=
  (sample_size_and_ohe (fun _ _ n _ => List.replicate n [0, 0]) (fun xs => xs)
    ⟨[[5]], [1]⟩ [1] 2 [[0, 0]] [[[true], [false]]] 0
    (fun _ _ n _ => List.length_replicate n _)).1 3 (by norm_num)

/-- C7: the Elastic Softmax Loss with scalar parameter `loss = 0` equals
plain categorical cross-entropy on every batch of labels and predicted
probabilities, whatever the (implementation-defined) correction term is. -/
theorem elr_loss_zero_is_cross_entropy (corr : List ℝ → List ℝ → ℝ)
    (yTrue yPred : List (List ℝ)) :
    elrLossBatch 0 corr yTrue yPred = catCrossEntropyBatch yTrue yPred := by
  unfold elrLossBatch catCrossEntropyBatch elrLossSample
  apply List.map_congr_left
  intro q _
  ring

end Ganblr
